import Mathlib

/-!
Verification development for the `prjman` / `project_patcher` repository.

We shallowly embed the parts of the code the claims concern:
* the patch engine (`create_patch` / `apply_patch`) from `workspace/patcher.py`
  (modelled from the spec, see the doc comments);
* the workspace reconciliation engine from `workspace/project.py`
  (`apply_patches`, `setup_working`, `generate_patch`, `output_file`,
  `output_working`), over an abstract directory model: a directory tree is an
  association list from relative paths (strings) to file contents;
* the registrar state machine from `prjman/defn/registrar.py`;
* the git source-descriptor codec from `metadata/files/git.py`.
-/

set_option autoImplicit false

universe u

/-- The content of a text file, as its list of lines. -/
abbrev Content := List String

/-- A single line-level edit operation inside a patch artifact. -/
inductive DiffOp where
  | keep (s : String)
  | delete (s : String)
  | insert (s : String)
deriving DecidableEq, Repr

/-- Modelled from the spec: `workspace/patcher.py` (which defines the textual
patch format) is not among the provided sources.  The spec describes the
artifact as "a unified-diff-style textual format" consisting of a header
(the file name and a generation time, both passed by `generate_patch`) and a
line-based delta over the two contents.  We model the artifact structurally:
the header data plus the list of line edit operations. -/
structure Patch where
  filename : String
  time : String
  ops : List DiffOp
deriving DecidableEq, Repr

/-- Modelled from the spec: the line-based delta between a clean content and
a working content, in the unified-diff style (context lines are kept,
clean-only lines deleted, working-only lines inserted). -/
def diffOps : Content → Content → List DiffOp
  | [], bs => bs.map DiffOp.insert
  | a :: as, [] => DiffOp.delete a :: diffOps as []
  | a :: as, b :: bs =>
      if a = b then DiffOp.keep a :: diffOps as bs
      else DiffOp.delete a :: DiffOp.insert b :: diffOps as bs

/-- Modelled from the spec: `create_patch(clean, working, filename, time)` of
`workspace/patcher.py`.  A unified diff of two equal contents has no hunks and
is the empty string (which `generate_patch` treats as "no patch"); we model
the empty patch text as `none`.  For unequal contents the patch records the
header data and the delta. -/
def create_patch (clean working : Content) (filename time : String) : Option Patch :=
  if clean = working then none else some ⟨filename, time, diffOps clean working⟩

/-- Modelled from the spec: replaying the delta of a patch on a content.
A mismatch between an expected context/deleted line and the actual content is
a patch-application failure ("a patch that fails to apply ... is a fatal
error"), modelled as `none`. -/
def applyOps : List DiffOp → Content → Option Content
  | [], [] => some []
  | [], _ :: _ => none
  | DiffOp.keep s :: ops, a :: as =>
      if s = a then (applyOps ops as).map (fun r => s :: r) else none
  | DiffOp.keep _ :: _, [] => none
  | DiffOp.delete s :: ops, a :: as =>
      if s = a then applyOps ops as else none
  | DiffOp.delete _ :: _, [] => none
  | DiffOp.insert s :: ops, as => (applyOps ops as).map (fun r => s :: r)

/-- Modelled from the spec: `apply_patch(content, patch_text)` of
`workspace/patcher.py`: applying the empty patch text leaves the content
unchanged; otherwise the delta is replayed on the content. -/
def apply_patch (content : Content) (patch : Option Patch) : Option Content :=
  match patch with
  | none => some content
  | some p => applyOps p.ops content

theorem applyOps_diffOps (a b : Content) : applyOps (diffOps a b) a = some b := by
  induction a generalizing b with
  | nil =>
      induction b with
      | nil => rfl
      | cons y ys ih => simpa [diffOps, applyOps] using ih
  | cons x as ih =>
      cases b with
      | nil => simpa [diffOps, applyOps] using ih []
      | cons y bs =>
          by_cases hxy : x = y
          · subst hxy
            simp [diffOps, applyOps, ih bs]
          · simp [diffOps, applyOps, hxy, ih bs]

/-- C1: for all text contents A (clean) and B (working), applying the patch
produced by diffing A against B back to A reproduces B exactly:
`apply_patch(A, create_patch(A, B)) = B`. -/
theorem create_apply_roundtrip (a b : Content) (filename time : String) :
    apply_patch a (create_patch a b filename time) = some b := by
  unfold create_patch apply_patch
  by_cases hab : a = b
  · simp [hab]
  · simp [hab, applyOps_diffOps]

/-!
### Directory trees

`workspace/project.py` manipulates directories through `os.walk`,
`shutil.copytree` and per-file open/read/write.  We model a directory tree as
an association list from relative paths to values (file contents or patch
artifacts), listed in walk order.
-/

/-- A directory tree: an association list from relative paths to values. -/
abbrev FSTree (α : Type u) := List (String × α)

/-- Reading the file at a path (`none` when no such file exists). -/
def lookupFS {α : Type u} : FSTree α → String → Option α
  | [], _ => none
  | (k, v) :: rest, key => if k = key then some v else lookupFS rest key

/-- The set of paths present in a tree. -/
def keysFS {α : Type u} (fs : FSTree α) : List String := fs.map Prod.fst

/-- Writing a file at a path: overwrite the existing entry, else create it. -/
def insertFS {α : Type u} : FSTree α → String → α → FSTree α
  | [], key, v => [(key, v)]
  | (k, w) :: rest, key, v =>
      if k = key then (key, v) :: rest else (k, w) :: insertFS rest key v

/-- `shutil.copytree(src, dst, dirs_exist_ok = True)`: every file of `src` is
copied into `dst`, overwriting files at the same relative path. -/
def copytree {α : Type u} (src dst : FSTree α) : FSTree α :=
  src.foldl (fun d kv => insertFS d kv.1 kv.2) dst

/-- `_PATCH_EXTENSION` of `workspace/project.py`. -/
def _PATCH_EXTENSION : String := "patch"

/-- `os.path.join` with the POSIX separator. -/
def os_path_join (a b : String) : String := a ++ "/" ++ b

/-- Python string slicing `s[start:-stop]` (for `stop > 0`). -/
def pySlice (s : String) (start stop : Nat) : String :=
  ((s.toList.drop start).take (s.toList.length - start - stop)).asString

/-- The relative path under the working directory that `apply_patches`
derives from a patch file's path:
`patch_path[(len(patch_dir) + 1):-(len(_PATCH_EXTENSION) + 1)]`. -/
def patch_rel_path (patch_dir pkey : String) : String :=
  pySlice (os_path_join patch_dir pkey) (patch_dir.length + 1) (_PATCH_EXTENSION.length + 1)

/-- `apply_patches(working_dir, patch_dir)` from `workspace/project.py`:
walk every file under the patch directory (the `FSTree Patch` argument lists
them by path relative to `patch_dir`, in walk order); derive each target
relative path by slicing the patch file's path; open the target file under
the working tree (`none` when absent, as `open(..., mode = 'r+')` fails),
apply the patch to its content, and write the result back in place. -/
def apply_patches : FSTree Content → String → FSTree Patch → Option (FSTree Content)
  | working, _, [] => some working
  | working, patch_dir, (pkey, p) :: rest =>
      let rel_path := patch_rel_path patch_dir pkey
      match lookupFS working rel_path with
      | none => none
      | some content =>
          match applyOps p.ops content with
          | none => none
          | some patched => apply_patches (insertFS working rel_path patched) patch_dir rest

/-- `setup_working` from `workspace/project.py`: delete the working directory
and recreate it empty (start from `[]`), copy the clean tree into it, copy the
output tree over it when the output directory exists, then apply the patches
when the patch directory exists. -/
def setup_working (clean : FSTree Content) (out_dir : Option (FSTree Content))
    (patch_dir : String) (patches : Option (FSTree Patch)) : Option (FSTree Content) :=
  let working := copytree clean []
  let working2 := match out_dir with
    | some out => copytree out working
    | none => working
  match patches with
  | some ps => apply_patches working2 patch_dir ps
  | none => some working2

/-- `generate_patch` from `workspace/project.py`: diff the clean content
against the working content; when the patch text is non-empty, write it at
`path + os.extsep + _PATCH_EXTENSION` relative to the patch directory. -/
def generate_patch (path : String) (work_content clean_content : Content)
    (time : String) : Option (String × Patch) :=
  (create_patch clean_content work_content path time).map
    (fun p => (path ++ "." ++ _PATCH_EXTENSION, p))

/-- `output_file` from `workspace/project.py`: copy the working file verbatim
to the same relative path under the output directory. -/
def output_file (path : String) (work_content : Content) : String × Content :=
  (path, work_content)

/-- The walk of `output_working` over the working tree: for each file, if a
clean counterpart exists, generate a patch (kept only when non-empty);
otherwise copy the file to the output tree. -/
def output_working_walk (clean : FSTree Content) (time : String) :
    FSTree Content → FSTree Patch × FSTree Content
  | [] => ([], [])
  | (rel_path, wc) :: rest =>
      let r := output_working_walk clean time rest
      match lookupFS clean rel_path with
      | some cc =>
          match generate_patch rel_path wc cc time with
          | some entry => (entry :: r.1, r.2)
          | none => r
      | none => (r.1, output_file rel_path wc :: r.2)

/-- `output_working` from `workspace/project.py`: delete the output and patch
directories when they exist (their previous contents are discarded), then
walk the working tree generating patches and output files. -/
def output_working (clean working : FSTree Content) (_prev_patches : FSTree Patch)
    (_prev_out : FSTree Content) (time : String) : FSTree Patch × FSTree Content :=
  output_working_walk clean time working

/-! ### Basic lemmas about the directory model -/

theorem lookupFS_insertFS_self {α : Type u} (fs : FSTree α) (k : String) (v : α) :
    lookupFS (insertFS fs k v) k = some v := by
  induction fs with
  | nil => simp [insertFS, lookupFS]
  | cons head rest ih =>
      obtain ⟨k0, v0⟩ := head
      by_cases h : k0 = k <;> simp [insertFS, lookupFS, h, ih]

theorem lookupFS_insertFS_ne {α : Type u} (fs : FSTree α) (k k' : String) (v : α)
    (h : k' ≠ k) : lookupFS (insertFS fs k v) k' = lookupFS fs k' := by
  have hk : ¬(k = k') := fun e => h e.symm
  induction fs with
  | nil => simp [insertFS, lookupFS, hk]
  | cons head rest ih =>
      obtain ⟨k0, v0⟩ := head
      by_cases h0 : k0 = k
      · subst h0
        simp [insertFS, lookupFS, hk]
      · simp [insertFS, lookupFS, h0, ih]

theorem lookupFS_eq_none_iff {α : Type u} (fs : FSTree α) (k : String) :
    lookupFS fs k = none ↔ k ∉ keysFS fs := by
  induction fs with
  | nil => simp [lookupFS, keysFS]
  | cons head rest ih =>
      obtain ⟨k0, v0⟩ := head
      by_cases h : k0 = k <;> simp [lookupFS, keysFS, h, ih] <;> tauto

theorem lookupFS_eq_some_of_mem {α : Type u} (fs : FSTree α) (k : String) (v : α)
    (hnd : (keysFS fs).Nodup) (hm : (k, v) ∈ fs) : lookupFS fs k = some v := by
  induction fs with
  | nil => simp at hm
  | cons head rest ih =>
      obtain ⟨k0, v0⟩ := head
      simp only [keysFS, List.map_cons, List.nodup_cons] at hnd
      rcases List.mem_cons.mp hm with h | h
      · injection h with h1 h2
        subst h1; subst h2
        simp [lookupFS]
      · have hk : k0 ≠ k := by
          intro e
          subst e
          exact hnd.1 (List.mem_map.mpr ⟨(k0, v), h, rfl⟩)
        simpa [lookupFS, hk] using ih hnd.2 h

theorem keys_nodup_mem_unique {α : Type u} (fs : FSTree α) (k : String) (a b : α)
    (hnd : (keysFS fs).Nodup) (ha : (k, a) ∈ fs) (hb : (k, b) ∈ fs) : a = b := by
  have h1 := lookupFS_eq_some_of_mem fs k a hnd ha
  have h2 := lookupFS_eq_some_of_mem fs k b hnd hb
  rw [h1] at h2
  injection h2

theorem lookupFS_copytree {α : Type u} (src dst : FSTree α) (k : String)
    (hnd : (keysFS src).Nodup) :
    lookupFS (copytree src dst) k
      = match lookupFS src k with
        | some v => some v
        | none => lookupFS dst k := by
  induction src generalizing dst with
  | nil => simp [copytree, lookupFS]
  | cons head rest ih =>
      obtain ⟨k0, v0⟩ := head
      simp only [keysFS, List.map_cons, List.nodup_cons] at hnd
      have hrw : copytree ((k0, v0) :: rest) dst = copytree rest (insertFS dst k0 v0) := rfl
      rw [hrw, ih (insertFS dst k0 v0) hnd.2]
      by_cases h : k0 = k
      · subst h
        have hrest : lookupFS rest k0 = none :=
          (lookupFS_eq_none_iff rest k0).mpr (fun hmem => hnd.1 hmem)
        simp [lookupFS, hrest, lookupFS_insertFS_self]
      · simp only [lookupFS, h, if_false]
        cases hr : lookupFS rest k with
        | some v => simp
        | none => simp [lookupFS_insertFS_ne dst k0 k v0 (fun e => h e.symm)]

/-- Right cancellation of string concatenation. -/
theorem string_append_cancel_right (a b s : String) (h : a ++ s = b ++ s) : a = b := by
  have hd : a.data ++ s.data = b.data ++ s.data := by
    rw [← String.data_append, ← String.data_append, h]
  exact String.ext (List.append_cancel_right hd)

/-- The slicing performed by `apply_patches` always removes exactly the first
`len(patch_dir) + 1` characters (the directory prefix and separator) and the
last `len('patch') + 1` characters of the walked file's path. -/
theorem patch_rel_path_eq (patch_dir pkey : String) :
    patch_rel_path patch_dir pkey
      = ((pkey.toList.take (pkey.toList.length - (_PATCH_EXTENSION.length + 1)))).asString := by
  have hdata : (os_path_join patch_dir pkey).toList
      = (patch_dir.toList ++ ['/']) ++ pkey.toList := by
    show (patch_dir ++ "/" ++ pkey).data = (patch_dir.data ++ ['/']) ++ pkey.data
    rw [String.data_append, String.data_append]
  have hlen : (patch_dir.toList ++ ['/']).length = patch_dir.length + 1 := by
    simp [String.toList]
  unfold patch_rel_path pySlice
  rw [hdata, List.drop_left' hlen]
  have harg : ((patch_dir.toList ++ ['/']) ++ pkey.toList).length - (patch_dir.length + 1)
        - (_PATCH_EXTENSION.length + 1)
      = pkey.toList.length - (_PATCH_EXTENSION.length + 1) := by
    simp only [List.length_append, hlen]
    omega
  rw [harg]

/-- On a file name that does end in `.patch`, the slicing recovers the
relative path that `generate_patch` encoded. -/
theorem patch_rel_path_roundtrip (patch_dir rel : String) :
    patch_rel_path patch_dir (rel ++ "." ++ _PATCH_EXTENSION) = rel := by
  rw [patch_rel_path_eq]
  have hdata : (rel ++ "." ++ _PATCH_EXTENSION).toList = rel.toList ++ ['.', 'p', 'a', 't', 'c', 'h'] := by
    show (rel ++ "." ++ _PATCH_EXTENSION).data = rel.data ++ ['.', 'p', 'a', 't', 'c', 'h']
    rw [String.data_append, String.data_append, List.append_assoc]
    rfl
  rw [hdata]
  have h5 : _PATCH_EXTENSION.length = 5 := rfl
  have h6 : (['.', 'p', 'a', 't', 'c', 'h'] : List Char).length = 6 := rfl
  have hlen : (rel.toList ++ ['.', 'p', 'a', 't', 'c', 'h']).length
      - (_PATCH_EXTENSION.length + 1) = rel.toList.length := by
    simp only [List.length_append, h5, h6]
    omega
  rw [hlen]
  have : (rel.toList ++ ['.', 'p', 'a', 't', 'c', 'h']).take rel.toList.length = rel.toList :=
    List.take_left rel.toList _
  rw [this]
  rfl

/-- A successful patch walk leaves every non-target path unchanged. -/
theorem apply_patches_not_target (patch_dir : String) (ps : FSTree Patch)
    (w' : FSTree Content) (p : String) :
    ∀ working : FSTree Content,
      apply_patches working patch_dir ps = some w' →
      (∀ q ∈ ps, patch_rel_path patch_dir q.1 ≠ p) →
      lookupFS w' p = lookupFS working p := by
  induction ps with
  | nil =>
      intro working hw _
      simp only [apply_patches] at hw
      injection hw with hw
      rw [hw]
  | cons head rest ih =>
      intro working hw hp
      obtain ⟨pkey, q⟩ := head
      cases hl : lookupFS working (patch_rel_path patch_dir pkey) with
      | none => simp only [apply_patches, hl] at hw; cases hw
      | some content =>
          cases ha : applyOps q.ops content with
          | none => simp only [apply_patches, hl, ha] at hw; cases hw
          | some patched =>
              simp only [apply_patches, hl, ha] at hw
              have hne : patch_rel_path patch_dir pkey ≠ p :=
                hp (pkey, q) (List.mem_cons_self _ _)
              have := ih (insertFS working (patch_rel_path patch_dir pkey) patched) hw
                (fun z hz => hp z (List.mem_cons_of_mem _ hz))
              rw [this, lookupFS_insertFS_ne _ _ _ _ (fun e => hne e.symm)]

/-- When the targets of a patch walk are pairwise distinct, each patch is
applied exactly once, to the content the target had before the walk. -/
theorem apply_patches_target (patch_dir : String) (ps : FSTree Patch)
    (w' : FSTree Content) (pkey : String) (q : Patch) :
    ∀ working : FSTree Content,
      (ps.map (fun z => patch_rel_path patch_dir z.1)).Nodup →
      apply_patches working patch_dir ps = some w' →
      (pkey, q) ∈ ps →
      ∃ c c', lookupFS working (patch_rel_path patch_dir pkey) = some c
        ∧ applyOps q.ops c = some c'
        ∧ lookupFS w' (patch_rel_path patch_dir pkey) = some c' := by
  induction ps with
  | nil => intro working _ _ hm; simp at hm
  | cons head rest ih =>
      intro working hnd hw hm
      obtain ⟨k0, q0⟩ := head
      simp only [List.map_cons, List.nodup_cons] at hnd
      cases hl : lookupFS working (patch_rel_path patch_dir k0) with
      | none => simp only [apply_patches, hl] at hw; cases hw
      | some c0 =>
          cases ha : applyOps q0.ops c0 with
          | none => simp only [apply_patches, hl, ha] at hw; cases hw
          | some c0' =>
              simp only [apply_patches, hl, ha] at hw
              rcases List.mem_cons.mp hm with he | hr
              · injection he with e1 e2
                subst e1; subst e2
                refine ⟨c0, c0', hl, ha, ?_⟩
                have hnt : ∀ z ∈ rest, patch_rel_path patch_dir z.1 ≠ patch_rel_path patch_dir pkey := by
                  intro z hz e
                  exact hnd.1 (List.mem_map.mpr ⟨z, hz, e⟩)
                rw [apply_patches_not_target patch_dir rest w' _ _ hw hnt]
                exact lookupFS_insertFS_self _ _ _
              · have hne : patch_rel_path patch_dir pkey ≠ patch_rel_path patch_dir k0 := by
                  intro e
                  exact hnd.1 (List.mem_map.mpr ⟨(pkey, q), hr, e⟩)
                obtain ⟨c, c', h1, h2, h3⟩ := ih _ hnd.2 hw hr
                rw [lookupFS_insertFS_ne _ _ _ _ hne] at h1
                exact ⟨c, c', h1, h2, h3⟩

/-- C10: `apply_patches` treats every file found under the patch directory as
a patch artifact: the target relative path is derived by removing the first
`len(patch_dir) + 1` characters and the last `len('patch') + 1` characters of
the file's path — regardless of whether the file name actually ends with the
`.patch` suffix — and the patch is applied to that (possibly wrong) target. -/
theorem apply_patches_strips_blindly :
    (∀ patch_dir pkey : String,
      patch_rel_path patch_dir pkey
        = (pkey.toList.take (pkey.toList.length - (_PATCH_EXTENSION.length + 1))).asString)
    ∧ (∀ (patch_dir pkey : String) (p : Patch) (rest : FSTree Patch) (working : FSTree Content),
        lookupFS working (patch_rel_path patch_dir pkey) = none →
        apply_patches working patch_dir ((pkey, p) :: rest) = none)
    ∧ (∀ (patch_dir pkey : String) (p : Patch) (working w' : FSTree Content),
        apply_patches working patch_dir [(pkey, p)] = some w' →
        ∃ c c', lookupFS working (patch_rel_path patch_dir pkey) = some c
          ∧ applyOps p.ops c = some c'
          ∧ w' = insertFS working (patch_rel_path patch_dir pkey) c') := by
  refine ⟨patch_rel_path_eq, ?_, ?_⟩
  · intro patch_dir pkey p rest working hl
    simp only [apply_patches]
    rw [hl]
  · intro patch_dir pkey p working w' hw
    cases hl : lookupFS working (patch_rel_path patch_dir pkey) with
    | none => simp only [apply_patches, hl] at hw; cases hw
    | some c =>
        cases ha : applyOps p.ops c with
        | none => simp only [apply_patches, hl, ha] at hw; cases hw
        | some c' =>
            simp only [apply_patches, hl, ha] at hw
            injection hw with hw
            exact ⟨c, c', rfl, ha, hw.symm⟩

theorem apply_patches_strips_blindly_witness :
    ∃ c c', lookupFS [("a/not", ["x"])] (patch_rel_path "_patches" "a/notes.txt") = some c
      ∧ applyOps (Patch.mk "f" "t" [DiffOp.keep "x"]).ops c = some c'
      ∧ ([("a/not", ["x"])] : FSTree Content)
          = insertFS [("a/not", ["x"])] (patch_rel_path "_patches" "a/notes.txt") c' :=
  apply_patches_strips_blindly.2.2 "_patches" "a/notes.txt" (Patch.mk "f" "t" [DiffOp.keep "x"])
    [("a/not", ["x"])] [("a/not", ["x"])] (by decide)

/-! ### Lemmas about the capture pass (`output_working`) -/

theorem mem_keysFS {α : Type u} (l : FSTree α) (k : String) :
    k ∈ keysFS l ↔ ∃ v, (k, v) ∈ l := by
  constructor
  · intro hk
    obtain ⟨e, hm, he⟩ := List.mem_map.mp hk
    exact ⟨e.2, by rwa [← he, Prod.mk.eta]⟩
  · rintro ⟨v, hv⟩
    exact List.mem_map.mpr ⟨(k, v), hv, rfl⟩

/-- Every modified file with a clean counterpart contributes its patch
artifact to the capture result. -/
theorem output_working_walk_patch_mem (clean : FSTree Content) (time : String)
    (rel : String) (wc cc : Content) (p : Patch) :
    ∀ working : FSTree Content, (rel, wc) ∈ working →
      lookupFS clean rel = some cc → create_patch cc wc rel time = some p →
      (rel ++ "." ++ _PATCH_EXTENSION, p) ∈ (output_working_walk clean time working).1 := by
  intro working
  induction working with
  | nil => intro hm _ _; simp at hm
  | cons head rest ih =>
      intro hm hl hcp
      obtain ⟨r0, w0⟩ := head
      rcases List.mem_cons.mp hm with he | hr
      · injection he with e1 e2
        subst e1; subst e2
        have hg : generate_patch rel wc cc time = some (rel ++ "." ++ _PATCH_EXTENSION, p) := by
          simp [generate_patch, hcp]
        simp only [output_working_walk, hl, hg]
        exact List.mem_cons_self _ _
      · cases hl0 : lookupFS clean r0 with
        | some cc0 =>
            cases hg0 : generate_patch r0 w0 cc0 time with
            | some entry =>
                simp only [output_working_walk, hl0, hg0]
                exact List.mem_cons_of_mem _ (ih hr hl hcp)
            | none =>
                simp only [output_working_walk, hl0, hg0]
                exact ih hr hl hcp
        | none =>
            simp only [output_working_walk, hl0]
            exact ih hr hl hcp

/-- Every patch artifact produced by the capture pass comes from a working
file with a clean counterpart and a non-empty diff, and is keyed by the
relative path plus the patch suffix. -/
theorem output_working_walk_patch_entries (clean : FSTree Content) (time : String) :
    ∀ (working : FSTree Content) (e : String × Patch), e ∈ (output_working_walk clean time working).1 →
      ∃ rel wc cc p, (rel, wc) ∈ working ∧ lookupFS clean rel = some cc
        ∧ create_patch cc wc rel time = some p ∧ e = (rel ++ "." ++ _PATCH_EXTENSION, p) := by
  intro working
  induction working with
  | nil => intro e he; simp [output_working_walk] at he
  | cons head rest ih =>
      intro e he
      obtain ⟨r0, w0⟩ := head
      cases hl0 : lookupFS clean r0 with
      | some cc0 =>
          cases hg0 : generate_patch r0 w0 cc0 time with
          | some entry =>
              simp only [output_working_walk, hl0, hg0] at he
              rcases List.mem_cons.mp he with he1 | he2
              · have hent : ∃ p0, create_patch cc0 w0 r0 time = some p0
                    ∧ entry = (r0 ++ "." ++ _PATCH_EXTENSION, p0) := by
                  cases hc : create_patch cc0 w0 r0 time with
                  | none => rw [generate_patch, hc] at hg0; simp at hg0
                  | some pp =>
                      rw [generate_patch, hc] at hg0
                      simp at hg0
                      exact ⟨pp, rfl, hg0.symm⟩
                obtain ⟨p0, hp0, hev⟩ := hent
                exact ⟨r0, w0, cc0, p0, List.mem_cons_self _ _, hl0, hp0, by rw [he1, hev]⟩
              · obtain ⟨rel, wc, cc, p, hmem, h1, h2, h3⟩ := ih e he2
                exact ⟨rel, wc, cc, p, List.mem_cons_of_mem _ hmem, h1, h2, h3⟩
          | none =>
              simp only [output_working_walk, hl0, hg0] at he
              obtain ⟨rel, wc, cc, p, hmem, h1, h2, h3⟩ := ih e he
              exact ⟨rel, wc, cc, p, List.mem_cons_of_mem _ hmem, h1, h2, h3⟩
      | none =>
          simp only [output_working_walk, hl0] at he
          obtain ⟨rel, wc, cc, p, hmem, h1, h2, h3⟩ := ih e he
          exact ⟨rel, wc, cc, p, List.mem_cons_of_mem _ hmem, h1, h2, h3⟩

/-- Every working file without a clean counterpart is copied verbatim into
the capture's output tree. -/
theorem output_working_walk_out_mem (clean : FSTree Content) (time : String)
    (rel : String) (wc : Content) :
    ∀ working : FSTree Content, (rel, wc) ∈ working → lookupFS clean rel = none →
      (rel, wc) ∈ (output_working_walk clean time working).2 := by
  intro working
  induction working with
  | nil => intro hm _; simp at hm
  | cons head rest ih =>
      intro hm hl
      obtain ⟨r0, w0⟩ := head
      rcases List.mem_cons.mp hm with he | hr
      · injection he with e1 e2
        subst e1; subst e2
        simp only [output_working_walk, hl, output_file]
        exact List.mem_cons_self _ _
      · cases hl0 : lookupFS clean r0 with
        | some cc0 =>
            cases hg0 : generate_patch r0 w0 cc0 time with
            | some entry =>
                simp only [output_working_walk, hl0, hg0]
                exact ih hr hl
            | none =>
                simp only [output_working_walk, hl0, hg0]
                exact ih hr hl
        | none =>
            simp only [output_working_walk, hl0, output_file]
            exact List.mem_cons_of_mem _ (ih hr hl)

/-- Every file in the capture's output tree is a working file without a
clean counterpart, copied verbatim. -/
theorem output_working_walk_out_entries (clean : FSTree Content) (time : String) :
    ∀ (working : FSTree Content) (e : String × Content), e ∈ (output_working_walk clean time working).2 →
      e ∈ working ∧ lookupFS clean e.1 = none := by
  intro working
  induction working with
  | nil => intro e he; simp [output_working_walk] at he
  | cons head rest ih =>
      intro e he
      obtain ⟨r0, w0⟩ := head
      cases hl0 : lookupFS clean r0 with
      | some cc0 =>
          cases hg0 : generate_patch r0 w0 cc0 time with
          | some entry =>
              simp only [output_working_walk, hl0, hg0] at he
              obtain ⟨hmem, hnone⟩ := ih e he
              exact ⟨List.mem_cons_of_mem _ hmem, hnone⟩
          | none =>
              simp only [output_working_walk, hl0, hg0] at he
              obtain ⟨hmem, hnone⟩ := ih e he
              exact ⟨List.mem_cons_of_mem _ hmem, hnone⟩
      | none =>
          simp only [output_working_walk, hl0, output_file] at he
          rcases List.mem_cons.mp he with he1 | he2
          · subst he1
            exact ⟨List.mem_cons_self _ _, hl0⟩
          · obtain ⟨hmem, hnone⟩ := ih e he2
            exact ⟨List.mem_cons_of_mem _ hmem, hnone⟩

/-- C2: during capture, for every working file at relative path R: if a clean
counterpart exists and the diff is non-empty, a patch artifact is written at
`R + '.' + 'patch'` in the patch tree and nothing is written to the output
tree for R; if the diff is empty, no artifact is written for R; if no clean
counterpart exists, the working file is copied verbatim to the output tree at
R and no patch is ever generated for it. -/
theorem output_working_classification (clean working : FSTree Content)
    (prev_p : FSTree Patch) (prev_o : FSTree Content) (time : String)
    (hnd : (keysFS working).Nodup) (rel : String) (wc : Content)
    (hm : (rel, wc) ∈ working) :
    (∀ cc, lookupFS clean rel = some cc →
      (∀ p, create_patch cc wc rel time = some p →
        (rel ++ "." ++ _PATCH_EXTENSION, p) ∈ (output_working clean working prev_p prev_o time).1)
      ∧ (create_patch cc wc rel time = none →
        (rel ++ "." ++ _PATCH_EXTENSION) ∉ keysFS (output_working clean working prev_p prev_o time).1)
      ∧ rel ∉ keysFS (output_working clean working prev_p prev_o time).2)
    ∧ (lookupFS clean rel = none →
      (rel, wc) ∈ (output_working clean working prev_p prev_o time).2
      ∧ (rel ++ "." ++ _PATCH_EXTENSION) ∉ keysFS (output_working clean working prev_p prev_o time).1) := by
  constructor
  · intro cc hl
    refine ⟨?_, ?_, ?_⟩
    · intro p hp
      exact output_working_walk_patch_mem clean time rel wc cc p working hm hl hp
    · intro hp hk
      obtain ⟨p0, hp0⟩ := (mem_keysFS _ _).mp hk
      obtain ⟨rel0, wc0, cc0, p1, hmem0, hl0, hcp0, he0⟩ :=
        output_working_walk_patch_entries clean time working _ hp0
      injection he0 with he1 he2
      have hrel : rel0 = rel :=
        (string_append_cancel_right _ _ _ (string_append_cancel_right _ _ _ he1)).symm
      subst hrel
      have hwc : wc0 = wc := keys_nodup_mem_unique working rel0 wc0 wc hnd hmem0 hm
      subst hwc
      rw [hl] at hl0
      injection hl0 with hl0
      subst hl0
      rw [hp] at hcp0
      cases hcp0
    · intro hk
      obtain ⟨wc0, hwc0⟩ := (mem_keysFS _ _).mp hk
      obtain ⟨_, hnone⟩ := output_working_walk_out_entries clean time working _ hwc0
      rw [hl] at hnone
      cases hnone
  · intro hl
    constructor
    · exact output_working_walk_out_mem clean time rel wc working hm hl
    · intro hk
      obtain ⟨p0, hp0⟩ := (mem_keysFS _ _).mp hk
      obtain ⟨rel0, wc0, cc0, p1, hmem0, hl0, hcp0, he0⟩ :=
        output_working_walk_patch_entries clean time working _ hp0
      injection he0 with he1 he2
      have hrel : rel0 = rel :=
        (string_append_cancel_right _ _ _ (string_append_cancel_right _ _ _ he1)).symm
      subst hrel
      rw [hl] at hl0
      cases hl0

theorem output_working_classification_witness :
    (("new.txt", ["n"]) ∈ (output_working [("a.txt", ["hello"])]
        [("a.txt", ["hello world"]), ("new.txt", ["n"])] [] [] "t").2)
    ∧ ("new.txt" ++ "." ++ _PATCH_EXTENSION) ∉ keysFS (output_working [("a.txt", ["hello"])]
        [("a.txt", ["hello world"]), ("new.txt", ["n"])] [] [] "t").1 :=
  (output_working_classification [("a.txt", ["hello"])]
    [("a.txt", ["hello world"]), ("new.txt", ["n"])] [] [] "t"
    (by decide) "new.txt" ["n"] (by decide)).2 (by decide)

/-- C4 (amended): capture is a pure function of the current clean and working
trees — the previous patch and output directories are deleted and have no
influence on the result, so a second capture with no edits in between yields
exactly the same patch and output trees as the first; diffing a file against
identical content produces no artifact; and the patch and output trees are
empty (on every run) when every working file matches its clean counterpart. -/
theorem output_working_pure_and_noop :
    (∀ (clean working : FSTree Content) (p1 p2 : FSTree Patch) (o1 o2 : FSTree Content) (t : String),
      output_working clean working p1 o1 t = output_working clean working p2 o2 t)
    ∧ (∀ (c : Content) (fn t : String), create_patch c c fn t = none)
    ∧ (∀ (clean working : FSTree Content) (pp : FSTree Patch) (po : FSTree Content) (t : String),
        (∀ e ∈ working, lookupFS clean e.1 = some e.2) →
        output_working clean working pp po t = ([], [])) := by
  refine ⟨fun _ _ _ _ _ _ _ => rfl, fun c fn t => by simp [create_patch], ?_⟩
  intro clean working pp po t hsame
  show output_working_walk clean t working = ([], [])
  induction working with
  | nil => rfl
  | cons head rest ih =>
      obtain ⟨r0, w0⟩ := head
      have hl0 : lookupFS clean r0 = some w0 := hsame (r0, w0) (List.mem_cons_self _ _)
      have hg0 : generate_patch r0 w0 w0 t = none := by
        simp [generate_patch, create_patch]
      simp only [output_working_walk, hl0, hg0]
      exact ih (fun e he => hsame e (List.mem_cons_of_mem _ he))

theorem output_working_pure_and_noop_witness :
    output_working [("a.txt", ["hello"])] [("a.txt", ["hello"])] [] [] "t" = ([], []) :=
  output_working_pure_and_noop.2.2 [("a.txt", ["hello"])] [("a.txt", ["hello"])] [] [] "t"
    (by decide)

/-- C4 counterexample: with clean `a.txt = "hello"` and working
`a.txt = "hello world"` (a state with edits already captured once and not
edited since), running capture again does NOT yield an empty patch
directory: the same non-empty patch is regenerated.  The claim's "empty
patch directory and empty output directory both times" fails. -/
theorem output_working_not_empty_counterexample :
    (output_working [("a.txt", ["hello"])] [("a.txt", ["hello world"])] [] [] "t").1 ≠ [] := by
  decide

/-- C3: `setup_working` rebuilds the working tree as clean overlaid by output
overlaid by applied patches: after the call, any path untouched by patches
holds the output content when the output tree has it (output wins over
clean) and the clean content otherwise, while each patched target holds the
result of applying its patch to the overlaid (pre-patch) content. -/
theorem setup_working_layering (clean out : FSTree Content) (patch_dir : String)
    (patches : FSTree Patch) (w : FSTree Content)
    (hc : (keysFS clean).Nodup) (ho : (keysFS out).Nodup)
    (hts : (patches.map (fun z => patch_rel_path patch_dir z.1)).Nodup)
    (hw : setup_working clean (some out) patch_dir (some patches) = some w) :
    (∀ p : String, (∀ z ∈ patches, patch_rel_path patch_dir z.1 ≠ p) →
      lookupFS w p = match lookupFS out p with
        | some v => some v
        | none => lookupFS clean p)
    ∧ (∀ pkey q, (pkey, q) ∈ patches →
        ∃ c c', lookupFS (copytree out (copytree clean [])) (patch_rel_path patch_dir pkey) = some c
          ∧ applyOps q.ops c = some c'
          ∧ lookupFS w (patch_rel_path patch_dir pkey) = some c') := by
  have hw' : apply_patches (copytree out (copytree clean [])) patch_dir patches = some w := hw
  constructor
  · intro p hp
    rw [apply_patches_not_target patch_dir patches w p _ hw' hp]
    rw [lookupFS_copytree out _ p ho, lookupFS_copytree clean [] p hc]
    cases lookupFS out p with
    | some v => rfl
    | none =>
        cases lookupFS clean p with
        | some v => rfl
        | none => rfl
  · intro pkey q hmq
    exact apply_patches_target patch_dir patches w pkey q _ hts hw' hmq

theorem setup_working_layering_witness :
    lookupFS [("a.txt", ["world"]), ("b.txt", ["bout"]), ("new.txt", ["n"])] "b.txt"
      = match lookupFS [("b.txt", ["bout"]), ("new.txt", ["n"])] "b.txt" with
        | some v => some v
        | none => lookupFS [("a.txt", ["hello"]), ("b.txt", ["b"])] "b.txt" :=
  (setup_working_layering [("a.txt", ["hello"]), ("b.txt", ["b"])]
    [("b.txt", ["bout"]), ("new.txt", ["n"])] "_patches"
    [("a.txt.patch", Patch.mk "a.txt" "t" [DiffOp.delete "hello", DiffOp.insert "world"])]
    [("a.txt", ["world"]), ("b.txt", ["bout"]), ("new.txt", ["n"])]
    (by decide) (by decide) (by decide) (by decide)).1 "b.txt" (by decide)

/-!
### The registrar (`prjman/defn/registrar.py`)

The `Registry` class itself (`prjman/struct/registry.py`) is not among the
provided sources; per the spec it is an insertion-ordered mapping from unique
string names to values, modelled as an association list with appends.
-/

/-- A registry: an insertion-ordered association list from names to values. -/
abbrev Registry (α : Type u) := List (String × α)

/-- Python's `name in registry` membership test. -/
def containsName {α : Type u} (registry : Registry α) (name : String) : Bool :=
  registry.any (fun e => e.1 == name)

/-- The errors raised by the registrar's registration methods:
`RegistryError` for a frozen registry, `ValueError` for a missing namespace
separator, a duplicate name, or a message added under a registered name. -/
inductive RegError where
  | frozen (name : String)
  | missingSeparator (name : String)
  | duplicate (name : String)
  | messageNotNeeded (name : String)
deriving DecidableEq, Repr

/-- The state of `PrjmanRegistrarImpl`: the staging counter and the five
registries. -/
structure PrjmanRegistrarImpl (C B P : Type u) where
  stager : Nat
  file_codecs : Registry C
  file_builders : Registry B
  file_handler_exceptions : Registry String
  post_processors : Registry P
  post_processor_exceptions : Registry String
deriving DecidableEq

/-- `PrjmanRegistrarImpl.__init__`: counter 0, all registries empty. -/
def PrjmanRegistrarImpl.init {C B P : Type u} : PrjmanRegistrarImpl C B P :=
  ⟨0, [], [], [], [], []⟩

/-- `PrjmanRegistrarImpl.__check_preconditions`: frozen error when the
counter exceeds 1, naming error when the counter exceeds 0 and the name has
no namespace separator, duplicate error when the name is already registered
in the target registry. -/
def check_preconditions {α : Type u} (stager : Nat) (name : String)
    (registry : Registry α) : Except RegError Unit :=
  if stager > 1 then .error (.frozen name)
  else if stager > 0 && !(name.toList.contains ':') then .error (.missingSeparator name)
  else if containsName registry name then .error (.duplicate name)
  else .ok ()

/-- `register_file_handler`: preconditions are checked against the codec
registry, then the codec and the builder are stored under the same name. -/
def PrjmanRegistrarImpl.register_file_handler {C B P : Type u}
    (self : PrjmanRegistrarImpl C B P) (name : String) (codec : C) (builder : B) :
    Except RegError (PrjmanRegistrarImpl C B P) :=
  match check_preconditions self.stager name self.file_codecs with
  | .error e => .error e
  | .ok _ => .ok { self with
      file_codecs := self.file_codecs ++ [(name, codec)],
      file_builders := self.file_builders ++ [(name, builder)] }

/-- `add_file_handler_missing_message`: preconditions are checked against the
message registry, then the call fails when the name already has a registered
file handler. -/
def PrjmanRegistrarImpl.add_file_handler_missing_message {C B P : Type u}
    (self : PrjmanRegistrarImpl C B P) (name message : String) :
    Except RegError (PrjmanRegistrarImpl C B P) :=
  match check_preconditions self.stager name self.file_handler_exceptions with
  | .error e => .error e
  | .ok _ =>
      if containsName self.file_codecs name then .error (.messageNotNeeded name)
      else .ok { self with
        file_handler_exceptions := self.file_handler_exceptions ++ [(name, message)] }

/-- `register_post_processor`. -/
def PrjmanRegistrarImpl.register_post_processor {C B P : Type u}
    (self : PrjmanRegistrarImpl C B P) (name : String) (post_processor : P) :
    Except RegError (PrjmanRegistrarImpl C B P) :=
  match check_preconditions self.stager name self.post_processors with
  | .error e => .error e
  | .ok _ => .ok { self with
      post_processors := self.post_processors ++ [(name, post_processor)] }

/-- `add_post_processor_missing_message`. -/
def PrjmanRegistrarImpl.add_post_processor_missing_message {C B P : Type u}
    (self : PrjmanRegistrarImpl C B P) (name message : String) :
    Except RegError (PrjmanRegistrarImpl C B P) :=
  match check_preconditions self.stager name self.post_processor_exceptions with
  | .error e => .error e
  | .ok _ =>
      if containsName self.post_processors name then .error (.messageNotNeeded name)
      else .ok { self with
        post_processor_exceptions := self.post_processor_exceptions ++ [(name, message)] }

/-- `stage`: advance the staging counter. -/
def PrjmanRegistrarImpl.stage {C B P : Type u} (self : PrjmanRegistrarImpl C B P) :
    PrjmanRegistrarImpl C B P :=
  { self with stager := self.stager + 1 }

/-- C6: staging monotonicity — starting from a fresh registrar, after two
`stage()` calls every registration call fails with the frozen-registry
error; after exactly one `stage()` call any registration whose name has no
namespace separator fails with the naming error; before the first `stage()`
call names without a separator are accepted by every registration method. -/
theorem registrar_staging_monotonic {C B P : Type u} (name : String) (codec : C)
    (builder : B) (pp : P) (message : String) :
    ((PrjmanRegistrarImpl.init.stage.stage : PrjmanRegistrarImpl C B P).register_file_handler
        name codec builder = .error (.frozen name)
      ∧ (PrjmanRegistrarImpl.init.stage.stage : PrjmanRegistrarImpl C B P).add_file_handler_missing_message
        name message = .error (.frozen name)
      ∧ (PrjmanRegistrarImpl.init.stage.stage : PrjmanRegistrarImpl C B P).register_post_processor
        name pp = .error (.frozen name)
      ∧ (PrjmanRegistrarImpl.init.stage.stage : PrjmanRegistrarImpl C B P).add_post_processor_missing_message
        name message = .error (.frozen name))
    ∧ (name.toList.contains ':' = false →
      (PrjmanRegistrarImpl.init.stage : PrjmanRegistrarImpl C B P).register_file_handler
        name codec builder = .error (.missingSeparator name)
      ∧ (PrjmanRegistrarImpl.init.stage : PrjmanRegistrarImpl C B P).add_file_handler_missing_message
        name message = .error (.missingSeparator name)
      ∧ (PrjmanRegistrarImpl.init.stage : PrjmanRegistrarImpl C B P).register_post_processor
        name pp = .error (.missingSeparator name)
      ∧ (PrjmanRegistrarImpl.init.stage : PrjmanRegistrarImpl C B P).add_post_processor_missing_message
        name message = .error (.missingSeparator name))
    ∧ ((∃ r', (PrjmanRegistrarImpl.init : PrjmanRegistrarImpl C B P).register_file_handler
        name codec builder = .ok r')
      ∧ (∃ r', (PrjmanRegistrarImpl.init : PrjmanRegistrarImpl C B P).add_file_handler_missing_message
        name message = .ok r')
      ∧ (∃ r', (PrjmanRegistrarImpl.init : PrjmanRegistrarImpl C B P).register_post_processor
        name pp = .ok r')
      ∧ (∃ r', (PrjmanRegistrarImpl.init : PrjmanRegistrarImpl C B P).add_post_processor_missing_message
        name message = .ok r')) := by
  refine ⟨⟨rfl, rfl, rfl, rfl⟩, ?_, ?_⟩
  · intro h
    have h' : ':' ∉ name.data := by simpa using h
    refine ⟨?_, ?_, ?_, ?_⟩ <;>
      simp [h', PrjmanRegistrarImpl.init, PrjmanRegistrarImpl.stage,
        PrjmanRegistrarImpl.register_file_handler,
        PrjmanRegistrarImpl.add_file_handler_missing_message,
        PrjmanRegistrarImpl.register_post_processor,
        PrjmanRegistrarImpl.add_post_processor_missing_message,
        check_preconditions, containsName]
  · exact ⟨⟨_, rfl⟩, ⟨_, rfl⟩, ⟨_, rfl⟩, ⟨_, rfl⟩⟩

theorem registrar_staging_monotonic_witness :
    (PrjmanRegistrarImpl.init.stage : PrjmanRegistrarImpl Nat Nat Nat).register_file_handler
        "x" 0 0 = .error (.missingSeparator "x")
      ∧ (PrjmanRegistrarImpl.init.stage : PrjmanRegistrarImpl Nat Nat Nat).add_file_handler_missing_message
        "x" "m" = .error (.missingSeparator "x")
      ∧ (PrjmanRegistrarImpl.init.stage : PrjmanRegistrarImpl Nat Nat Nat).register_post_processor
        "x" 0 = .error (.missingSeparator "x")
      ∧ (PrjmanRegistrarImpl.init.stage : PrjmanRegistrarImpl Nat Nat Nat).add_post_processor_missing_message
        "x" "m" = .error (.missingSeparator "x") :=
  (registrar_staging_monotonic "x" 0 0 0 "m").2.1 (by decide)

/-- C5 counterexample: on a fresh registrar, registering a "missing" message
for the name `x` succeeds, and then registering a concrete file handler
under the same name `x` ALSO succeeds — the second call does not fail, so
the claimed mutual exclusion does not hold in the message-then-provider
order. -/
theorem registrar_mutual_exclusion_counterexample :
    (PrjmanRegistrarImpl.init : PrjmanRegistrarImpl Nat Nat Nat).add_file_handler_missing_message
        "x" "msg" = .ok ⟨0, [], [], [("x", "msg")], [], []⟩
    ∧ (PrjmanRegistrarImpl.mk 0 [] [] [("x", "msg")] [] []
        : PrjmanRegistrarImpl Nat Nat Nat).register_file_handler "x" 7 8
      = .ok ⟨0, [("x", 7)], [("x", 8)], [("x", "msg")], [], []⟩ :=
  ⟨rfl, rfl⟩

/-- C5 (amended): the exclusion between concrete registrations and "missing"
messages is enforced in one direction only — registering a message under a
name that already has a concrete provider (or post-processor) registration
always fails with an error (and, the check being performed before any
mutation, the failing call produces no new state); in the opposite order,
registering a provider (or post-processor) under a name holding only a
missing message succeeds whenever the staging/naming/duplicate
preconditions pass. -/
theorem registrar_one_way_exclusion {C B P : Type u} (r : PrjmanRegistrarImpl C B P)
    (name message : String) (codec : C) (builder : B) (pp : P) :
    (containsName r.file_codecs name = true →
      ∃ e, r.add_file_handler_missing_message name message = .error e)
    ∧ (containsName r.post_processors name = true →
      ∃ e, r.add_post_processor_missing_message name message = .error e)
    ∧ (check_preconditions r.stager name r.file_codecs = .ok () →
      ∃ r', r.register_file_handler name codec builder = .ok r')
    ∧ (check_preconditions r.stager name r.post_processors = .ok () →
      ∃ r', r.register_post_processor name pp = .ok r') := by
  refine ⟨?_, ?_, ?_, ?_⟩
  · intro hc
    cases hpre : check_preconditions r.stager name r.file_handler_exceptions with
    | error e =>
        exact ⟨e, by simp [PrjmanRegistrarImpl.add_file_handler_missing_message, hpre]⟩
    | ok u =>
        exact ⟨.messageNotNeeded name,
          by simp [PrjmanRegistrarImpl.add_file_handler_missing_message, hpre, hc]⟩
  · intro hc
    cases hpre : check_preconditions r.stager name r.post_processor_exceptions with
    | error e =>
        exact ⟨e, by simp [PrjmanRegistrarImpl.add_post_processor_missing_message, hpre]⟩
    | ok u =>
        exact ⟨.messageNotNeeded name,
          by simp [PrjmanRegistrarImpl.add_post_processor_missing_message, hpre, hc]⟩
  · intro hpre
    have hr : r.register_file_handler name codec builder = .ok { r with
        file_codecs := r.file_codecs ++ [(name, codec)]
        file_builders := r.file_builders ++ [(name, builder)] } := by
      simp [PrjmanRegistrarImpl.register_file_handler, hpre]
    exact ⟨_, hr⟩
  · intro hpre
    have hr : r.register_post_processor name pp = .ok { r with
        post_processors := r.post_processors ++ [(name, pp)] } := by
      simp [PrjmanRegistrarImpl.register_post_processor, hpre]
    exact ⟨_, hr⟩

theorem registrar_one_way_exclusion_witness :
    ∃ e, (PrjmanRegistrarImpl.mk 0 [("x", 5)] [("x", 6)] [] [] []
        : PrjmanRegistrarImpl Nat Nat Nat).add_file_handler_missing_message "x" "m"
      = .error e :=
  (registrar_one_way_exclusion
    (PrjmanRegistrarImpl.mk 0 [("x", 5)] [("x", 6)] [] [] []) "x" "m" 5 6 0).1 (by decide)

/-- C8: `register_file_handler` stores the codec and the builder under the
same name atomically: a failing call fails on the precondition check (which
happens before any mutation, so nothing is modified), and a succeeding call
appends exactly one entry, with the supplied name, to BOTH the codec and the
builder registries while leaving every other field unchanged; consequently
when the two registries hold the same names before the call they hold the
same names after it. -/
theorem register_file_handler_atomic {C B P : Type u} (r : PrjmanRegistrarImpl C B P)
    (name : String) (codec : C) (builder : B) :
    (∀ e, r.register_file_handler name codec builder = .error e →
      check_preconditions r.stager name r.file_codecs = .error e)
    ∧ (∀ r', r.register_file_handler name codec builder = .ok r' →
      r'.file_codecs = r.file_codecs ++ [(name, codec)]
      ∧ r'.file_builders = r.file_builders ++ [(name, builder)]
      ∧ r'.stager = r.stager
      ∧ r'.file_handler_exceptions = r.file_handler_exceptions
      ∧ r'.post_processors = r.post_processors
      ∧ r'.post_processor_exceptions = r.post_processor_exceptions)
    ∧ (keysFS r.file_codecs = keysFS r.file_builders →
      ∀ r', r.register_file_handler name codec builder = .ok r' →
        keysFS r'.file_codecs = keysFS r'.file_builders) := by
  have hmain : ∀ r', r.register_file_handler name codec builder = .ok r' →
      r'.file_codecs = r.file_codecs ++ [(name, codec)]
      ∧ r'.file_builders = r.file_builders ++ [(name, builder)]
      ∧ r'.stager = r.stager
      ∧ r'.file_handler_exceptions = r.file_handler_exceptions
      ∧ r'.post_processors = r.post_processors
      ∧ r'.post_processor_exceptions = r.post_processor_exceptions := by
    intro r' hr
    cases hpre : check_preconditions r.stager name r.file_codecs with
    | error e => simp [PrjmanRegistrarImpl.register_file_handler, hpre] at hr
    | ok u =>
        simp only [PrjmanRegistrarImpl.register_file_handler, hpre] at hr
        injection hr with hr
        subst hr
        exact ⟨rfl, rfl, rfl, rfl, rfl, rfl⟩
  refine ⟨?_, hmain, ?_⟩
  · intro e he
    cases hpre : check_preconditions r.stager name r.file_codecs with
    | error e0 =>
        simp only [PrjmanRegistrarImpl.register_file_handler, hpre] at he
        injection he with he
        rw [he]
    | ok u => simp [PrjmanRegistrarImpl.register_file_handler, hpre] at he
  · intro hkeys r' hr
    obtain ⟨h1, h2, _⟩ := hmain r' hr
    rw [h1, h2]
    show List.map Prod.fst (r.file_codecs ++ [(name, codec)])
      = List.map Prod.fst (r.file_builders ++ [(name, builder)])
    rw [List.map_append, List.map_append]
    show keysFS r.file_codecs ++ [name] = keysFS r.file_builders ++ [name]
    rw [hkeys]

theorem register_file_handler_atomic_witness :
    keysFS (PrjmanRegistrarImpl.mk 0 [("x", 7)] [("x", 8)] [] [] []
        : PrjmanRegistrarImpl Nat Nat Nat).file_codecs
      = keysFS (PrjmanRegistrarImpl.mk 0 [("x", 7)] [("x", 8)] [] [] []
        : PrjmanRegistrarImpl Nat Nat Nat).file_builders :=
  (register_file_handler_atomic (PrjmanRegistrarImpl.init : PrjmanRegistrarImpl Nat Nat Nat)
    "x" 7 8).2.2 rfl (PrjmanRegistrarImpl.mk 0 [("x", 7)] [("x", 8)] [] [] []) rfl

/-!
### The git source descriptor codec (`metadata/files/git.py`)
-/

/-- The keys of `_VALID_BRANCH_TYPES`, listed in the order of the source
literal.  In the code this is a Python `set`, whose iteration order is an
unspecified permutation of these keys (string hashing is randomized per
process), not the literal order. -/
def _VALID_BRANCH_TYPES : List String := ["branch", "commit", "tag"]

/-- A generic structured document (`DictObject`) with string values. -/
abbrev DictObject := List (String × String)

/-- `GitProjectFile`: the repository link, the optional checkout reference,
the name of the key holding the reference, and the project file directory. -/
structure GitProjectFile where
  dir : String
  repository : String
  branch : Option String
  branch_type : String
deriving DecidableEq, Repr

/-- The `GitProjectFile` constructor: raises `ValueError` (modelled as
`none`) when `branch_type` is not within `_VALID_BRANCH_TYPES`. -/
def GitProjectFile.make (repository : String) (branch : Option String)
    (branch_type : String) (dir : String) : Option GitProjectFile :=
  if branch_type ∈ _VALID_BRANCH_TYPES then some ⟨dir, repository, branch, branch_type⟩
  else none

/-- `get_default(GitProjectFile, 'branch')`: the declared default of the
`branch` parameter is `None`. -/
def get_default_branch : Option String := none

/-- `GitProjectFileCodec.encode_type`: always write `repository` into the
document; write the branch under the key named by `branch_type` only when
`branch` differs from its declared default (`None`, so exactly when it
matches `some`). -/
def encode_type (obj : GitProjectFile) (dict_obj : DictObject) : DictObject :=
  let d1 := insertFS dict_obj "repository" obj.repository
  match obj.branch with
  | some b => insertFS d1 obj.branch_type b
  | none => d1

/-- `GitProjectFileCodec.decode_type`: iterate over the branch-type keys in
the iteration order of the Python set `_VALID_BRANCH_TYPES` (the `order`
parameter, a permutation of the three keys); the first key present in the
document wins and becomes `branch_type` with its value as `branch`; absent
all three, construct the base form from the required `repository` field
(`obj['repository']`, whose `KeyError` is modelled as `none`). -/
def decode_type (order : List String) (dir : String) (obj : DictObject) :
    Option GitProjectFile :=
  match order with
  | [] =>
      match lookupFS obj "repository" with
      | some repo => GitProjectFile.make repo none "branch" dir
      | none => none
  | k :: ks =>
      match lookupFS obj k with
      | some v =>
          match lookupFS obj "repository" with
          | some repo => GitProjectFile.make repo (some v) k dir
          | none => none
      | none => decode_type ks dir obj

theorem decode_type_first_match_aux (dir : String) (obj : DictObject)
    (k v repo : String) (post : List String) (hk : k ∈ _VALID_BRANCH_TYPES)
    (hv : lookupFS obj k = some v) (hrepo : lookupFS obj "repository" = some repo) :
    ∀ pre : List String, (∀ j ∈ pre, lookupFS obj j = none) →
      decode_type (pre ++ k :: post) dir obj = some ⟨dir, repo, some v, k⟩ := by
  intro pre
  induction pre with
  | nil =>
      intro _
      simp [decode_type, hv, hrepo, GitProjectFile.make, hk]
  | cons j pre' ih =>
      intro habs
      have hj : lookupFS obj j = none := habs j (List.mem_cons_self _ _)
      simp only [List.cons_append, decode_type, hj]
      exact ih (fun z hz => habs z (List.mem_cons_of_mem _ hz))

theorem decode_type_base_aux (dir : String) (obj : DictObject) (repo : String)
    (hrepo : lookupFS obj "repository" = some repo) :
    ∀ order : List String, (∀ j ∈ order, lookupFS obj j = none) →
      decode_type order dir obj = some ⟨dir, repo, none, "branch"⟩ := by
  intro order
  induction order with
  | nil =>
      intro _
      simp [decode_type, hrepo, GitProjectFile.make, _VALID_BRANCH_TYPES]
  | cons j order' ih =>
      intro habs
      have hj : lookupFS obj j = none := habs j (List.mem_cons_self _ _)
      simp only [decode_type, hj]
      exact ih (fun z hz => habs z (List.mem_cons_of_mem _ hz))

/-- C7 counterexample: the document holding `repository`, `commit` and `tag`
decodes differently under the set-iteration order `tag, commit, branch` (a
permutation of `_VALID_BRANCH_TYPES`, hence a possible Python set order)
than under the claimed declared priority order `branch, commit, tag`: the
former picks `tag`, the latter `commit`.  The fixed declared order is
therefore not what the code guarantees. -/
theorem decode_type_order_counterexample :
    List.Perm ["tag", "commit", "branch"] _VALID_BRANCH_TYPES
    ∧ decode_type ["tag", "commit", "branch"] "."
        [("repository", "r"), ("commit", "c"), ("tag", "t")]
      ≠ decode_type ["branch", "commit", "tag"] "."
        [("repository", "r"), ("commit", "c"), ("tag", "t")] := by
  exact ⟨by decide, by decide⟩

/-- C7 (amended): decode tests the discriminating keys in the iteration
order of the Python set `_VALID_BRANCH_TYPES` — an unspecified permutation
of `branch`, `commit`, `tag`, not necessarily the declared literal order;
the first key of that iteration order present in the document determines
the constructed descriptor's `branch` and `branch_type`; when none of the
three keys is present, the base form is constructed from the required
`repository` field alone. -/
theorem decode_type_first_match (dir : String) (obj : DictObject) :
    (∀ (pre post : List String) (k v repo : String),
      (pre ++ k :: post).Perm _VALID_BRANCH_TYPES →
      (∀ j ∈ pre, lookupFS obj j = none) →
      lookupFS obj k = some v →
      lookupFS obj "repository" = some repo →
      decode_type (pre ++ k :: post) dir obj = some ⟨dir, repo, some v, k⟩)
    ∧ (∀ order : List String, order.Perm _VALID_BRANCH_TYPES →
      (∀ j ∈ _VALID_BRANCH_TYPES, lookupFS obj j = none) →
      ∀ repo, lookupFS obj "repository" = some repo →
      decode_type order dir obj = some ⟨dir, repo, none, "branch"⟩) := by
  constructor
  · intro pre post k v repo hperm habs hv hrepo
    have hk : k ∈ _VALID_BRANCH_TYPES :=
      hperm.mem_iff.mp (List.mem_append.mpr (Or.inr (List.mem_cons_self _ _)))
    exact decode_type_first_match_aux dir obj k v repo post hk hv hrepo pre habs
  · intro order hperm habs repo hrepo
    exact decode_type_base_aux dir obj repo hrepo order
      (fun j hj => habs j (hperm.mem_iff.mp hj))

theorem decode_type_first_match_witness :
    decode_type (["tag"] ++ "commit" :: ["branch"]) "."
        [("repository", "r"), ("commit", "c")]
      = some ⟨".", "r", some "c", "commit"⟩ :=
  (decode_type_first_match "." [("repository", "r"), ("commit", "c")]).1
    ["tag"] ["branch"] "commit" "c" "r" (by decide) (by decide) (by decide) (by decide)

/-- C9: `encode_type` always emits `repository`; it emits the branch value
under the key named by `branch_type` exactly when `branch` differs from its
declared default (`None`); and that emission key, `branch_type`, is one of
the discriminator keys that `decode_type` tests for. -/
theorem encode_type_sparse (obj : GitProjectFile) (d : DictObject)
    (hbt : obj.branch_type ∈ _VALID_BRANCH_TYPES) :
    (lookupFS (encode_type obj d) "repository" = some obj.repository)
    ∧ (∀ b, obj.branch = some b → lookupFS (encode_type obj []) obj.branch_type = some b)
    ∧ (obj.branch = get_default_branch →
        encode_type obj [] = [("repository", obj.repository)]
        ∧ lookupFS (encode_type obj []) obj.branch_type = none) := by
  have hne : obj.branch_type ≠ "repository" := fun e => by
    rw [e] at hbt
    exact absurd hbt (by decide)
  have hne' : "repository" ≠ obj.branch_type := fun e => hne e.symm
  refine ⟨?_, ?_, ?_⟩
  · cases hb : obj.branch with
    | none => simp only [encode_type, hb]; exact lookupFS_insertFS_self _ _ _
    | some b =>
        simp only [encode_type, hb]
        rw [lookupFS_insertFS_ne _ _ _ _ (fun e => hne e.symm)]
        exact lookupFS_insertFS_self _ _ _
  · intro b hb
    simp only [encode_type, hb]
    exact lookupFS_insertFS_self _ _ _
  · intro hb
    rw [get_default_branch] at hb
    constructor
    · simp [encode_type, hb, insertFS]
    · simp only [encode_type, hb]
      simp [insertFS, lookupFS, hne']

theorem encode_type_sparse_witness :
    lookupFS (encode_type ⟨".", "r", some "b", "commit"⟩ []) "commit" = some "b" :=
  (encode_type_sparse ⟨".", "r", some "b", "commit"⟩ [] (by decide)).2.1 "b" rfl
